import Mathlib

/-!
Shallow embedding of `cirq/experiments/fidelity_estimation.py` (two-qubit
cross-entropy benchmarking pipeline) and proofs about it.

Real-valued quantities are modelled over `ℚ`; machine floats are treated as
exact arithmetic.  Fallible Python functions are embedded as `Except PyError`
values, with a `PyError` constructor per exception class the source can raise.
-/

namespace FidelityEstimation

/-- Python exceptions raised by the source module. -/
inductive PyError where
  | valueError
  | assertionError
  | zeroDivisionError
  deriving DecidableEq, Repr

/-- `np.mean` of a list of rationals (sum divided by length; the empty list,
where NumPy would produce NaN, falls to `0/0 = 0` in `ℚ`). -/
def npMean (p : List ℚ) : ℚ := p.sum / p.length

/-- Embedding of `linear_xeb_fidelity_from_probabilities`:
`hilbert_space_dimension * np.mean(probabilities) - 1`. -/
def linear_xeb_fidelity_from_probabilities (hilbert_space_dimension : ℕ)
    (probabilities : List ℚ) : ℚ :=
  hilbert_space_dimension * npMean probabilities - 1

/-- The accumulation loop of `least_squares_xeb_fidelity_from_expectations`:
starting from `numerator = 0.0` and `denominator = 0.0`, for each zipped
triple `(m, e, u)` add `(m - u) * (e - u)` to the numerator and `(e - u) ** 2`
to the denominator. -/
def lsqSums (meu : List (ℚ × ℚ × ℚ)) : ℚ × ℚ :=
  meu.foldl
    (fun acc t => (acc.1 + (t.1 - t.2.2) * (t.2.1 - t.2.2), acc.2 + (t.2.1 - t.2.2) ^ 2))
    (0, 0)

/-- Embedding of `least_squares_xeb_fidelity_from_expectations`.  The source
first checks the three sequence lengths (raising `ValueError` on mismatch),
then accumulates the numerator and denominator over `zip(measured, exact,
uniform)`, divides (Python floats raise `ZeroDivisionError` on a zero
denominator), and returns the fidelity with the residual list. -/
def least_squares_xeb_fidelity_from_expectations
    (measured_expectations exact_expectations uniform_expectations : List ℚ) :
    Except PyError (ℚ × List ℚ) :=
  if ¬ (measured_expectations.length = exact_expectations.length ∧
        exact_expectations.length = uniform_expectations.length) then
    .error .valueError
  else
    let meu := measured_expectations.zip (exact_expectations.zip uniform_expectations)
    let s := lsqSums meu
    if s.2 = 0 then .error .zeroDivisionError
    else
      let fidelity := s.1 / s.2
      .ok (fidelity, meu.map (fun t => fidelity * (t.2.1 - t.2.2) - (t.1 - t.2.2)))

/-- A joined row of the benchmark table: exact (`pure_probs`) and empirical
(`sampled_probs`) outcome distributions for one `(circuit_i, cycle_depth)`. -/
structure XEBRow where
  pure_probs : List ℚ
  sampled_probs : List ℚ
  deriving DecidableEq, Repr

namespace XEBRow

/-- `_summary_stats`: `e_u = np.sum(pure_probs ** 2)`. -/
def e_u (r : XEBRow) : ℚ := (r.pure_probs.map (· ^ 2)).sum

/-- `_summary_stats`: `u_u = np.sum(pure_probs) / D` with `D = 4`. -/
def u_u (r : XEBRow) : ℚ := r.pure_probs.sum / 4

/-- `_summary_stats`: `m_u = np.sum(pure_probs * sampled_probs)`. -/
def m_u (r : XEBRow) : ℚ := (List.zipWith (· * ·) r.pure_probs r.sampled_probs).sum

/-- `_summary_stats`: `y = m_u - u_u`. -/
def y (r : XEBRow) : ℚ := r.m_u - r.u_u

/-- `_summary_stats`: `x = e_u - u_u`. -/
def x (r : XEBRow) : ℚ := r.e_u - r.u_u

/-- `_summary_stats`: `numerator = x * y`. -/
def numerator (r : XEBRow) : ℚ := r.x * r.y

/-- `_summary_stats`: `denominator = x ** 2`. -/
def denominator (r : XEBRow) : ℚ := r.x ^ 2

end XEBRow

/-- `per_cycle_depth` inside `benchmark_2q_xeb_fidelities`: the fidelity of one
cycle-depth group is `df['numerator'].sum() / df['denominator'].sum()`. -/
def per_cycle_depth (rows : List XEBRow) : ℚ :=
  (rows.map XEBRow.numerator).sum / (rows.map XEBRow.denominator).sum

/-- Folding the paired accumulator is the pair of the two mapped sums. -/
theorem lsq_foldl_pair (f g : α → ℚ) (l : List α) (a b : ℚ) :
    l.foldl (fun acc t => (acc.1 + f t, acc.2 + g t)) (a, b) =
      (a + (l.map f).sum, b + (l.map g).sum) := by
  induction l generalizing a b with
  | nil => simp
  | cons x xs ih => simp [ih, add_assoc]

/-- `lsqSums` computes the two sums `Σ (m-u)(e-u)` and `Σ (e-u)²`. -/
theorem lsqSums_eq (meu : List (ℚ × ℚ × ℚ)) :
    lsqSums meu =
      ((meu.map (fun t => (t.1 - t.2.2) * (t.2.1 - t.2.2))).sum,
       (meu.map (fun t => (t.2.1 - t.2.2) ^ 2)).sum) := by
  simpa [lsqSums] using
    lsq_foldl_pair (fun t : ℚ × ℚ × ℚ => (t.1 - t.2.2) * (t.2.1 - t.2.2))
      (fun t : ℚ × ℚ × ℚ => (t.2.1 - t.2.2) ^ 2) meu 0 0

/-- C2: `least_squares_xeb_fidelity_from_expectations` raises `ValueError`
whenever the three input sequences differ in length; otherwise, whenever
`Σ_U (e_U - u_U)² ≠ 0`, it returns the fidelity
`f = Σ_U (m_U - u_U)(e_U - u_U) / Σ_U (e_U - u_U)²` and the residual list with
`U`-th entry `f (e_U - u_U) - (m_U - u_U)`. -/
theorem least_squares_xeb_fidelity_from_expectations_spec (m e u : List ℚ) :
    (¬ (m.length = e.length ∧ e.length = u.length) →
      least_squares_xeb_fidelity_from_expectations m e u = .error .valueError)
    ∧ (m.length = e.length → e.length = u.length →
      ((m.zip (e.zip u)).map (fun t => (t.2.1 - t.2.2) ^ 2)).sum ≠ 0 →
      least_squares_xeb_fidelity_from_expectations m e u =
        .ok (((m.zip (e.zip u)).map (fun t => (t.1 - t.2.2) * (t.2.1 - t.2.2))).sum /
               ((m.zip (e.zip u)).map (fun t => (t.2.1 - t.2.2) ^ 2)).sum,
             (m.zip (e.zip u)).map (fun t =>
               ((m.zip (e.zip u)).map (fun s => (s.1 - s.2.2) * (s.2.1 - s.2.2))).sum /
                 ((m.zip (e.zip u)).map (fun s => (s.2.1 - s.2.2) ^ 2)).sum *
                   (t.2.1 - t.2.2) - (t.1 - t.2.2)))) := by
  constructor
  · intro h
    simp [least_squares_xeb_fidelity_from_expectations, h]
  · intro h1 h2 hden
    simp [least_squares_xeb_fidelity_from_expectations, h1, h2, lsqSums_eq, hden]

/-- Witness for C2: a concrete in-range evaluation and a concrete length
mismatch, both obtained from the main theorem. -/
theorem least_squares_xeb_fidelity_from_expectations_spec_witness :
    least_squares_xeb_fidelity_from_expectations [3] [5] [1] = .ok (1/2, [0])
    ∧ least_squares_xeb_fidelity_from_expectations [] [5] [1] = .error .valueError := by
  constructor
  · rw [(least_squares_xeb_fidelity_from_expectations_spec [3] [5] [1]).2 rfl rfl (by norm_num)]
    norm_num
  · exact (least_squares_xeb_fidelity_from_expectations_spec [] [5] [1]).1 (by simp)

/-- C9: when the three sequences have equal length but `Σ_U (e_U - u_U)² = 0`,
the function raises `ZeroDivisionError` from the fidelity division, not the
documented `ValueError`, and returns no result. -/
theorem least_squares_xeb_fidelity_zero_denominator (m e u : List ℚ)
    (h1 : m.length = e.length) (h2 : e.length = u.length)
    (hden : ((m.zip (e.zip u)).map (fun t => (t.2.1 - t.2.2) ^ 2)).sum = 0) :
    least_squares_xeb_fidelity_from_expectations m e u = .error .zeroDivisionError := by
  simp [least_squares_xeb_fidelity_from_expectations, h1, h2, lsqSums_eq, hden]

/-- Witness for C9: three empty sequences yield `ZeroDivisionError`. -/
theorem least_squares_xeb_fidelity_zero_denominator_witness :
    least_squares_xeb_fidelity_from_expectations [] [] [] = .error .zeroDivisionError :=
  least_squares_xeb_fidelity_zero_denominator [] [] [] rfl rfl (by simp)

/-- C8: for every dimension `D` and non-empty probability list `p`,
`linear_xeb_fidelity_from_probabilities` returns exactly `D·mean(p) − 1`. -/
theorem linear_xeb_fidelity_from_probabilities_spec (D : ℕ) (p : List ℚ) (hp : p ≠ []) :
    linear_xeb_fidelity_from_probabilities D p = D * (p.sum / p.length) - 1 := rfl

/-- Witness for C8 at `D = 4`, `p = [1/2, 1/4]`. -/
theorem linear_xeb_fidelity_from_probabilities_spec_witness :
    linear_xeb_fidelity_from_probabilities 4 [1/2, 1/4] = 1/2 := by
  rw [linear_xeb_fidelity_from_probabilities_spec 4 [1/2, 1/4] (by simp)]
  norm_num

/-- C1: on any depth group of joined rows whose denominator sum is non-zero,
the closed-form grouped solve of `benchmark_2q_xeb_fidelities`
(`Σ numerator / Σ denominator`) is exactly the fidelity returned by
`least_squares_xeb_fidelity_from_expectations` applied to that group's
`(m_u, e_u, u_u)` triples. -/
theorem benchmark_2q_xeb_fidelities_refines_least_squares (rows : List XEBRow)
    (hden : (rows.map XEBRow.denominator).sum ≠ 0) :
    (least_squares_xeb_fidelity_from_expectations
        (rows.map XEBRow.m_u) (rows.map XEBRow.e_u) (rows.map XEBRow.u_u)).map Prod.fst
      = .ok (per_cycle_depth rows) := by
  have hzip : (rows.map XEBRow.m_u).zip ((rows.map XEBRow.e_u).zip (rows.map XEBRow.u_u))
      = rows.map (fun r => (r.m_u, r.e_u, r.u_u)) := by
    rw [List.zip_map', List.zip_map']
  have hnum : (rows.map ((fun t : ℚ × ℚ × ℚ => (t.1 - t.2.2) * (t.2.1 - t.2.2)) ∘
        (fun r : XEBRow => (r.m_u, r.e_u, r.u_u)))).sum = (rows.map XEBRow.numerator).sum := by
    congr 1
    exact List.map_congr_left fun r _ => by
      simp [XEBRow.numerator, XEBRow.x, XEBRow.y, mul_comm]
  have hd : (rows.map ((fun t : ℚ × ℚ × ℚ => (t.2.1 - t.2.2) ^ 2) ∘
        (fun r : XEBRow => (r.m_u, r.e_u, r.u_u)))).sum
      = (rows.map XEBRow.denominator).sum := rfl
  simp only [least_squares_xeb_fidelity_from_expectations, List.length_map, and_self,
    not_true_eq_false, if_false, hzip, lsqSums_eq, List.map_map, hnum, hd]
  simp [per_cycle_depth, Except.map, hden]

/-- Witness for C1 on a one-row depth group with a non-vanishing denominator. -/
theorem benchmark_2q_xeb_fidelities_refines_least_squares_witness :
    (least_squares_xeb_fidelity_from_expectations
        ([⟨[1, 0, 0, 0], [1, 0, 0, 0]⟩].map XEBRow.m_u)
        ([⟨[1, 0, 0, 0], [1, 0, 0, 0]⟩].map XEBRow.e_u)
        ([⟨[1, 0, 0, 0], [1, 0, 0, 0]⟩].map XEBRow.u_u)).map Prod.fst
      = .ok (per_cycle_depth [⟨[1, 0, 0, 0], [1, 0, 0, 0]⟩]) :=
  benchmark_2q_xeb_fidelities_refines_least_squares [⟨[1, 0, 0, 0], [1, 0, 0, 0]⟩]
    (by norm_num [XEBRow.denominator, XEBRow.x, XEBRow.e_u, XEBRow.u_u])

/-! ### Circuit model

The circuit representation is an external collaborator of the module: a
circuit is an ordered list of moments (layers), each a list of operations on
qubits; `len(circuit)` is the layer count, `circuit[:k]` is `List.take k`, and
`circuit + op` appends the operation as a terminal moment. Qubits are `ℕ`. -/

/-- A gate, identified by a code; `meas` is the terminal measurement gate. -/
inductive Gate where
  | meas
  | unitary (code : ℕ)
  deriving DecidableEq, Repr

/-- One operation: a gate applied to a list of qubits. -/
structure Operation where
  gate : Gate
  qubits : List ℕ
  deriving DecidableEq, Repr

/-- A moment: the operations of one layer. -/
abbrev Moment := List Operation

/-- A circuit: an ordered list of moments. -/
abbrev Circuit := List Moment

/-- `ops.measure(q0, q1)`: the two-qubit terminal measurement operation. -/
def measureOp (q0 q1 : ℕ) : Operation := ⟨Gate.meas, [q0, q1]⟩

/-- All qubits a circuit touches (`circuit.all_qubits()`, with duplicates). -/
def circuitQubits (c : Circuit) : List ℕ := c.flatMap (fun m => m.flatMap Operation.qubits)

/-! ### Simulation scheduler (`_Simulate_2q_XEB_Circuit`, `simulate_2q_xeb_circuits`) -/

/-- A `pure_probs` record keyed by `(circuit_i, cycle_depth)`. -/
structure SimRecord where
  circuit_i : ℕ
  cycle_depth : ℕ
  pure_probs : List ℚ
  deriving DecidableEq, Repr

/-- Embedding of `_Simulate_2q_XEB_Circuit.__call__` on one task.  The
stepwise state-vector simulator is an external collaborator, abstracted by
`probsAfter c i`: the squared-magnitude probability vector of the state after
moment `i` of circuit `c` (the parameter resolver is folded into it).  The
source computes `circuit_max_cycle_depth = (len(circuit) - 1) // 2` (Python
floor division, hence `Int.fdiv`), raises `ValueError` when
`max(cycle_depths)` exceeds it (Python's `max` also raises `ValueError` on an
empty collection), then walks the moment steps in order, skipping odd
moments, and records one row per even moment whose cycle depth
`moment_i // 2` lies in the (deduplicating) set of requested depths. -/
def simulate_2q_xeb_circuit (probsAfter : Circuit → ℕ → List ℚ) (circuit_i : ℕ)
    (cycle_depths : List ℕ) (circuit : Circuit) : Except PyError (List SimRecord) :=
  match cycle_depths with
  | [] => .error .valueError
  | d :: ds =>
    if ((ds.foldl max d : ℕ) : ℤ) > Int.fdiv ((circuit.length : ℤ) - 1) 2 then
      .error .valueError
    else
      .ok <| (List.range circuit.length).filterMap fun moment_i =>
        if moment_i % 2 = 1 then none
        else if moment_i / 2 ∈ cycle_depths then
          some ⟨circuit_i, moment_i / 2, probsAfter circuit moment_i⟩
        else none

/-- The task loop of `simulate_2q_xeb_circuits` (sequential; the optional
process pool maps the same calls and changes no output).  The first `ValueError`
raised by a per-circuit task propagates. -/
def simulateTasks (probsAfter : Circuit → ℕ → List ℚ) (cycle_depths : List ℕ) :
    List (ℕ × Circuit) → Except PyError (List (List SimRecord))
  | [] => .ok []
  | (i, c) :: rest =>
    match simulate_2q_xeb_circuit probsAfter i cycle_depths c with
    | .error e => .error e
    | .ok recs =>
      match simulateTasks probsAfter cycle_depths rest with
      | .error e => .error e
      | .ok rest' => .ok (recs :: rest')

/-- Embedding of `simulate_2q_xeb_circuits`: one task per enumerated circuit,
all with the same requested cycle depths; the nested record lists are
flattened into one table. -/
def simulate_2q_xeb_circuits (probsAfter : Circuit → ℕ → List ℚ)
    (circuits : List Circuit) (cycle_depths : List ℕ) :
    Except PyError (List SimRecord) :=
  (simulateTasks probsAfter cycle_depths circuits.enum).map List.flatten

/-- Every element of `a :: ds` is bounded by `ds.foldl max a` (the running
maximum that models Python's `max`). -/
theorem le_foldl_max : ∀ (ds : List ℕ) (a x : ℕ), (x = a ∨ x ∈ ds) → x ≤ ds.foldl max a := by
  intro ds
  induction ds with
  | nil => rintro a x (rfl | h) <;> simp_all
  | cons b ds ih =>
    rintro a x (rfl | h)
    · exact le_trans (le_max_left x b) (ih (max x b) _ (Or.inl rfl))
    · rcases List.mem_cons.mp h with rfl | h
      · exact le_trans (le_max_right a x) (ih (max a x) _ (Or.inl rfl))
      · exact ih _ _ (Or.inr h)

/-- The running maximum is bounded by any common bound of the elements. -/
theorem foldl_max_le : ∀ (ds : List ℕ) (a b : ℕ), a ≤ b → (∀ x ∈ ds, x ≤ b) →
    ds.foldl max a ≤ b := by
  intro ds
  induction ds with
  | nil => intro a b h _; simpa using h
  | cons c ds ih =>
    intro a b h hall
    exact ih _ _ (max_le h (hall c (List.mem_cons_self c ds)))
      fun x hx => hall x (List.mem_cons_of_mem _ hx)

/-- The source's guard `d > (len - 1) // 2` (floor division on `ℤ`) says
exactly that the truncated circuit `2d + 1` would be longer than the circuit. -/
theorem cycle_depth_bound (d len : ℕ) :
    ((d : ℤ) > Int.fdiv ((len : ℤ) - 1) 2) ↔ 2 * d + 1 > len := by
  cases len with
  | zero =>
    have h : Int.fdiv ((0 : ℤ) - 1) 2 = -1 := by decide
    simp only [Nat.cast_zero, h]
    omega
  | succ n =>
    have h : ((n : ℤ) + 1) - 1 = (n : ℤ) := by ring
    rw [Nat.cast_succ, h, Int.fdiv_eq_ediv _ (by omega)]
    omega

/-- C4: for every circuit, the per-circuit simulation task computes the
maximum feasible cycle depth as `(layer_count - 1) // 2` and fails with
`ValueError` when any requested depth exceeds it — independently of the
simulator, so before any state vector is recorded. -/
theorem simulate_2q_xeb_circuit_depth_check (probsAfter : Circuit → ℕ → List ℚ)
    (circuit_i : ℕ) (cycle_depths : List ℕ) (circuit : Circuit)
    (h : ∃ d ∈ cycle_depths, (d : ℤ) > Int.fdiv ((circuit.length : ℤ) - 1) 2) :
    simulate_2q_xeb_circuit probsAfter circuit_i cycle_depths circuit = .error .valueError := by
  obtain ⟨d, hd, hgt⟩ := h
  cases cycle_depths with
  | nil => simp at hd
  | cons a ds =>
    have hle : d ≤ ds.foldl max a := le_foldl_max ds a d (List.mem_cons.mp hd)
    have : ((ds.foldl max a : ℕ) : ℤ) > Int.fdiv ((circuit.length : ℤ) - 1) 2 :=
      lt_of_lt_of_le hgt (by exact_mod_cast hle)
    simp [simulate_2q_xeb_circuit, this]

/-- Witness for C4: a one-layer circuit cannot host cycle depth 1. -/
theorem simulate_2q_xeb_circuit_depth_check_witness :
    simulate_2q_xeb_circuit (fun _ _ => []) 0 [1] [[]] = .error .valueError :=
  simulate_2q_xeb_circuit_depth_check (fun _ _ => []) 0 [1] [[]]
    ⟨1, by simp, by decide⟩

/-! ### Sampling scheduler (`sample_2q_xeb_circuits` and helpers) -/

/-- Embedding of `_verify_and_get_two_qubits_from_circuits`: union the qubits
of all circuits, sort them, fail with `ValueError` unless there are exactly
two, and return the sorted pair. -/
def verify_and_get_two_qubits_from_circuits (circuits : List Circuit) :
    Except PyError (ℕ × ℕ) :=
  let qs := ((circuits.flatMap circuitQubits).dedup).insertionSort (· ≤ ·)
  if h : qs.length = 2 then .ok (qs.get ⟨0, by omega⟩, qs.get ⟨1, by omega⟩)
  else .error .valueError

/-- `_Sample2qXEBTask`: one (cycle depth, circuit) unit of work. -/
structure Sample2qXEBTask where
  cycle_depth : ℕ
  circuit_i : ℕ
  prepared_circuit : Circuit
  deriving DecidableEq, Repr

/-- A `sampled_probs` record keyed by `(circuit_i, cycle_depth)`. -/
structure SampleRecord where
  circuit_i : ℕ
  cycle_depth : ℕ
  sampled_probs : List ℚ
  deriving DecidableEq, Repr

/-- `np.bincount(sampled_inds, minlength=4) / len(sampled_inds)`: the
empirical outcome distribution (of length `max 4 (max index + 1)`). -/
def bincountProbs (inds : List ℕ) : List ℚ :=
  (List.range (max 4 (inds.foldr (fun i a => max (i + 1) a) 0))).map
    fun k => ((inds.count k : ℚ) / (inds.length : ℚ))

/-- `_SampleInBatches.__call__`: run one batch of tasks through the external
sampler (abstracted as the per-circuit list of observed outcome indices,
`result.data.values[:, 0]`) and build one record per task. -/
def sampleInBatches (sampler : Circuit → List ℕ) (tasks : List Sample2qXEBTask) :
    List SampleRecord :=
  tasks.map fun task =>
    ⟨task.circuit_i, task.cycle_depth, bincountProbs (sampler task.prepared_circuit)⟩

/-- The task-construction loop of `sample_2q_xeb_circuits` run over the
flattened `(cycle_depth, circuit_i, circuit)` iteration: assert
`cycle_depth * 2 + 1 <= len(circuit)` (an `AssertionError` aborts at the first
violating pair), truncate to that many layers, and append the terminal
two-qubit measurement. -/
def buildSampleTasks (q0 q1 : ℕ) :
    List (ℕ × ℕ × Circuit) → Except PyError (List Sample2qXEBTask)
  | [] => .ok []
  | (d, i, c) :: rest =>
    if 2 * d + 1 ≤ c.length then
      match buildSampleTasks q0 q1 rest with
      | .ok ts => .ok (⟨d, i, c.take (2 * d + 1) ++ [[measureOp q0 q1]]⟩ :: ts)
      | .error e => .error e
    else .error .assertionError

/-- `[tasks[i:i+batch_size] for i in range(0, n_tasks, batch_size)]`.
(`batch_size = 0` would make Python's `range` raise; the theorems below
assume `0 < batch_size`, and the default is 9.) -/
def toBatches (batch_size : ℕ) (l : List α) : List (List α) :=
  if h1 : l.isEmpty then []
  else if h2 : batch_size = 0 then []
  else l.take batch_size :: toBatches batch_size (l.drop batch_size)
termination_by l.length
decreasing_by
  simp only [List.length_drop]
  have : l.length ≠ 0 := by
    intro hl
    rw [List.isEmpty_iff, ← List.length_eq_zero] at h1
    exact h1 hl
  omega

/-- Embedding of `sample_2q_xeb_circuits`.  The outer loop ranges over cycle
depths, the inner over enumerated circuits; the task list is chunked into
batches and each batch is run through `_SampleInBatches`; completed batches
are concatenated (the thread pool's completion order permutes batches but is
modelled as submission order; the record multiset is order-independent). -/
def sample_2q_xeb_circuits (sampler : Circuit → List ℕ) (circuits : List Circuit)
    (cycle_depths : List ℕ) (batch_size : ℕ) : Except PyError (List SampleRecord) :=
  match verify_and_get_two_qubits_from_circuits circuits with
  | .error e => .error e
  | .ok (q0, q1) =>
    match buildSampleTasks q0 q1
        (cycle_depths.flatMap fun d => circuits.enum.map fun ic => (d, ic.1, ic.2)) with
    | .error e => .error e
    | .ok tasks =>
      .ok ((toBatches batch_size tasks).map (sampleInBatches sampler)).flatten

/-- Chunking and re-concatenating restores the task list. -/
theorem toBatches_flatten (batch_size : ℕ) (hbs : 0 < batch_size) (l : List α) :
    (toBatches batch_size l).flatten = l := by
  rw [toBatches]
  by_cases h1 : l.isEmpty
  · rw [dif_pos h1]
    rw [List.isEmpty_iff] at h1
    simp [h1]
  · rw [dif_neg h1, dif_neg (Nat.pos_iff_ne_zero.mp hbs), List.flatten_cons,
      toBatches_flatten batch_size hbs (l.drop batch_size), List.take_append_drop]
termination_by l.length
decreasing_by
  simp only [List.length_drop]
  have : l.length ≠ 0 := by
    intro hl
    rw [List.isEmpty_iff, ← List.length_eq_zero] at h1
    exact h1 hl
  omega

/-- If some pair violates the truncation assertion, task construction fails
with `AssertionError`. -/
theorem buildSampleTasks_error (q0 q1 : ℕ) :
    ∀ pairs : List (ℕ × ℕ × Circuit),
      (∃ p ∈ pairs, ¬ (2 * p.1 + 1 ≤ p.2.2.length)) →
      buildSampleTasks q0 q1 pairs = .error .assertionError := by
  intro pairs
  induction pairs with
  | nil => rintro ⟨p, hp, _⟩; simp at hp
  | cons hd tl ih =>
    rintro ⟨p, hp, hbad⟩
    obtain ⟨d, i, c⟩ := hd
    rcases List.mem_cons.mp hp with rfl | hmem
    · simp only [buildSampleTasks, if_neg hbad]
    · by_cases hfit : 2 * d + 1 ≤ c.length
      · simp only [buildSampleTasks, if_pos hfit, ih ⟨p, hmem, hbad⟩]
      · simp only [buildSampleTasks, if_neg hfit]

/-- If every pair fits, task construction succeeds and produces exactly one
task per pair, with the truncated-and-measured circuit. -/
theorem buildSampleTasks_ok (q0 q1 : ℕ) :
    ∀ pairs : List (ℕ × ℕ × Circuit),
      (∀ p ∈ pairs, 2 * p.1 + 1 ≤ p.2.2.length) →
      buildSampleTasks q0 q1 pairs =
        .ok (pairs.map fun p =>
          ⟨p.1, p.2.1, p.2.2.take (2 * p.1 + 1) ++ [[measureOp q0 q1]]⟩) := by
  intro pairs
  induction pairs with
  | nil => intro _; rfl
  | cons hd tl ih =>
    intro hall
    obtain ⟨d, i, c⟩ := hd
    have hfit := hall (d, i, c) (List.mem_cons_self _ _)
    simp only [buildSampleTasks, if_pos hfit,
      ih fun p hp => hall p (List.mem_cons_of_mem _ hp), List.map_cons]

/-- Success case of the sampling scheduler, shared by the theorems below:
when every depth fits every circuit, the output is one record per
`(cycle_depth, circuit)` pair, in iteration order. -/
theorem sample_2q_xeb_circuits_ok (sampler : Circuit → List ℕ)
    (circuits : List Circuit) (cycle_depths : List ℕ) (batch_size : ℕ) (q0 q1 : ℕ)
    (hq : verify_and_get_two_qubits_from_circuits circuits = .ok (q0, q1))
    (hbs : 0 < batch_size)
    (hall : ∀ d ∈ cycle_depths, ∀ c ∈ circuits, 2 * d + 1 ≤ c.length) :
    sample_2q_xeb_circuits sampler circuits cycle_depths batch_size =
      .ok (cycle_depths.flatMap fun d => circuits.enum.map fun ic =>
        ⟨ic.1, d, bincountProbs (sampler (ic.2.take (2 * d + 1) ++ [[measureOp q0 q1]]))⟩) := by
  have hfit : ∀ p ∈ (cycle_depths.flatMap fun d => circuits.enum.map fun ic => (d, ic.1, ic.2)),
      2 * p.1 + 1 ≤ p.2.2.length := by
    intro p hp
    obtain ⟨d, hd, hp2⟩ := List.mem_flatMap.mp hp
    obtain ⟨ic, hic, rfl⟩ := List.mem_map.mp hp2
    have hc : ic.2 ∈ circuits := by
      have := List.mem_enum_iff_getElem?.mp (show (ic.1, ic.2) ∈ circuits.enum from hic)
      exact List.getElem?_mem this
    exact hall d hd ic.2 hc
  have hok := buildSampleTasks_ok q0 q1 _ hfit
  have hrec : (((toBatches batch_size
        ((cycle_depths.flatMap fun d => circuits.enum.map fun ic => (d, ic.1, ic.2)).map fun p =>
          (⟨p.1, p.2.1, p.2.2.take (2 * p.1 + 1) ++ [[measureOp q0 q1]]⟩ : Sample2qXEBTask))).map
          (sampleInBatches sampler)).flatten
      = cycle_depths.flatMap fun d => circuits.enum.map fun ic =>
          ⟨ic.1, d, bincountProbs (sampler (ic.2.take (2 * d + 1) ++ [[measureOp q0 q1]]))⟩) := by
    rw [show (sampleInBatches sampler) = List.map (fun task : Sample2qXEBTask =>
        (⟨task.circuit_i, task.cycle_depth, bincountProbs (sampler task.prepared_circuit)⟩ :
          SampleRecord)) from rfl]
    rw [← List.map_flatten, toBatches_flatten batch_size hbs, List.map_map, List.map_flatMap]
    simp only [List.map_map]
    rfl
  simp only [sample_2q_xeb_circuits, hq, hok, hrec]

/-- The expected record table has one row per `(cycle_depth, circuit)` pair. -/
theorem sample_expected_records_length (sampler : Circuit → List ℕ)
    (circuits : List Circuit) (cycle_depths : List ℕ) (q0 q1 : ℕ) :
    (cycle_depths.flatMap fun d => circuits.enum.map fun ic =>
      (⟨ic.1, d, bincountProbs (sampler (ic.2.take (2 * d + 1) ++ [[measureOp q0 q1]]))⟩ :
        SampleRecord)).length = circuits.length * cycle_depths.length := by
  rw [List.flatMap_def, List.length_flatten, List.map_map]
  have : (List.map (List.length ∘ fun d => circuits.enum.map fun ic =>
      (⟨ic.1, d, bincountProbs (sampler (ic.2.take (2 * d + 1) ++ [[measureOp q0 q1]]))⟩ :
        SampleRecord)) cycle_depths)
      = List.replicate cycle_depths.length circuits.length := by
    rw [show (List.length ∘ fun d => circuits.enum.map fun ic =>
        (⟨ic.1, d, bincountProbs (sampler (ic.2.take (2 * d + 1) ++ [[measureOp q0 q1]]))⟩ :
          SampleRecord)) = fun _ => circuits.length from ?_]
    · exact List.map_const' _ _
    · funext d
      simp [List.enum_length]
  rw [this, List.sum_const_nat, Nat.mul_comm]

/-- C3: once the two-qubit verification has produced `(q0, q1)` and the batch
size is positive, `sample_2q_xeb_circuits` (i) fails with `AssertionError`
whenever some requested depth `d` and some library circuit satisfy
`2d + 1 > len(circuit)`, and (ii) when every depth fits every circuit it
produces exactly one record per `(cycle_depth, circuit_index)` pair — the
circuit truncated to its first `2d + 1` layers with a terminal two-qubit
measurement appended, sampled, and keyed by `(circuit_i, cycle_depth)` —
for `len(circuits) * len(cycle_depths)` records in total. -/
theorem sample_2q_xeb_circuits_spec (sampler : Circuit → List ℕ)
    (circuits : List Circuit) (cycle_depths : List ℕ) (batch_size : ℕ) (q0 q1 : ℕ)
    (hq : verify_and_get_two_qubits_from_circuits circuits = .ok (q0, q1))
    (hbs : 0 < batch_size) :
    ((∃ d ∈ cycle_depths, ∃ c ∈ circuits, c.length < 2 * d + 1) →
        sample_2q_xeb_circuits sampler circuits cycle_depths batch_size =
          .error .assertionError)
    ∧ ((∀ d ∈ cycle_depths, ∀ c ∈ circuits, 2 * d + 1 ≤ c.length) →
        sample_2q_xeb_circuits sampler circuits cycle_depths batch_size =
          .ok (cycle_depths.flatMap fun d => circuits.enum.map fun ic =>
            ⟨ic.1, d, bincountProbs (sampler (ic.2.take (2 * d + 1) ++ [[measureOp q0 q1]]))⟩)
        ∧ (cycle_depths.flatMap fun d => circuits.enum.map fun ic =>
            (⟨ic.1, d, bincountProbs (sampler (ic.2.take (2 * d + 1) ++ [[measureOp q0 q1]]))⟩ :
              SampleRecord)).length = circuits.length * cycle_depths.length) := by
  constructor
  · rintro ⟨d, hd, c, hc, hbad⟩
    obtain ⟨i, hi, hci⟩ := List.mem_iff_getElem.mp hc
    have hpair : (d, i, c) ∈
        (cycle_depths.flatMap fun d => circuits.enum.map fun ic => (d, ic.1, ic.2)) := by
      refine List.mem_flatMap.mpr ⟨d, hd, List.mem_map.mpr ⟨(i, c), ?_, rfl⟩⟩
      exact List.mem_enum_iff_getElem?.mpr (by rw [List.getElem?_eq_getElem hi, hci])
    have herr := buildSampleTasks_error q0 q1 _ ⟨(d, i, c), hpair, by simpa using hbad⟩
    simp only [sample_2q_xeb_circuits, hq, herr]
  · intro hall
    exact ⟨sample_2q_xeb_circuits_ok sampler circuits cycle_depths batch_size q0 q1 hq hbs hall,
      sample_expected_records_length sampler circuits cycle_depths q0 q1⟩

/-- Witness for C3 on a one-circuit library over qubits 0 and 1: cycle depth 1
needs 3 layers and trips the assertion, while cycle depth 0 yields exactly one
record. -/
theorem sample_2q_xeb_circuits_spec_witness :
    sample_2q_xeb_circuits (fun _ => [0]) [[[⟨Gate.unitary 0, [0, 1]⟩]]] [1] 9 =
        .error .assertionError
    ∧ sample_2q_xeb_circuits (fun _ => [0]) [[[⟨Gate.unitary 0, [0, 1]⟩]]] [0] 9 =
        .ok [⟨0, 0, bincountProbs [0]⟩] := by
  constructor
  · exact (sample_2q_xeb_circuits_spec (fun _ => [0]) [[[⟨Gate.unitary 0, [0, 1]⟩]]] [1] 9 0 1
      rfl (by omega)).1 ⟨1, by simp, [[⟨Gate.unitary 0, [0, 1]⟩]], by simp, by simp⟩
  · have h := (sample_2q_xeb_circuits_spec (fun _ => [0]) [[[⟨Gate.unitary 0, [0, 1]⟩]]] [0] 9 0 1
      rfl (by omega)).2 (by simp)
    exact h.1.trans (by rfl)

/-- C6 counterexample: a library whose single circuit touches only qubit 0 is
confined to the common pair `{0, 1}`, yet the verification raises
`ValueError` instead of proceeding — refuting the claimed equivalence. -/
theorem verify_two_qubits_counterexample :
    ¬ ((∃ q0 q1 : ℕ, q0 ≠ q1 ∧
          ∀ c ∈ ([[[⟨Gate.unitary 0, [0]⟩]]] : List Circuit),
            ∀ q ∈ circuitQubits c, q = q0 ∨ q = q1)
        ↔ ∃ p, verify_and_get_two_qubits_from_circuits [[[⟨Gate.unitary 0, [0]⟩]]] = .ok p) := by
  intro h
  obtain ⟨p, hp⟩ := h.mp ⟨0, 1, by omega, by decide⟩
  rw [show verify_and_get_two_qubits_from_circuits [[[⟨Gate.unitary 0, [0]⟩]]] =
    .error .valueError from rfl] at hp
  exact absurd hp (by simp)

/-- C6 amended: the verification succeeds if and only if the set of qubits
used across the whole library has exactly two elements (every circuit is then
confined to that common pair); otherwise it raises `ValueError`. -/
theorem verify_two_qubits_iff (circuits : List Circuit) :
    ((∃ p, verify_and_get_two_qubits_from_circuits circuits = .ok p)
        ↔ (circuits.flatMap circuitQubits).toFinset.card = 2)
    ∧ ((verify_and_get_two_qubits_from_circuits circuits = .error .valueError)
        ↔ (circuits.flatMap circuitQubits).toFinset.card ≠ 2) := by
  have hcard : (circuits.flatMap circuitQubits).toFinset.card
      = (circuits.flatMap circuitQubits).dedup.length := by
    rw [Finset.card, List.toFinset_val, Multiset.coe_card]
  rw [hcard]
  by_cases h : (circuits.flatMap circuitQubits).dedup.length = 2
  · constructor
    · simp [verify_and_get_two_qubits_from_circuits, List.length_insertionSort, h]
    · simp [verify_and_get_two_qubits_from_circuits, List.length_insertionSort, h]
  · constructor
    · simp [verify_and_get_two_qubits_from_circuits, List.length_insertionSort, h]
    · simp [verify_and_get_two_qubits_from_circuits, List.length_insertionSort, h]

/-! ### Single-circuit XEB evaluator (`xeb_fidelity`) -/

/-- `np.abs(z) ** 2` for a complex amplitude modelled as `(re, im)`. -/
def absSq (a : ℚ × ℚ) : ℚ := a.1 ^ 2 + a.2 ^ 2

/-- Embedding of `xeb_fidelity`.  The circuit enters through its
`qid_shape()` (the per-site dimensions); the external simulator
(`cirq.final_state_vector`) is abstracted as `final_state b`, the output
amplitude of basis state `b`; `amplitudes` is the optional user-supplied
bitstring→amplitude mapping that bypasses simulation.  Bitstrings are Python
ints, hence `ℤ`.  The source computes `dim` as the product of the qid shape,
checks `0 <= bitstring < dim` for every bitstring (raising `ValueError`
otherwise), then derives the observed bitstrings' probabilities as squared
magnitudes and delegates to the estimator. -/
def xeb_fidelity (qid_shape : List ℕ) (bitstrings : List ℤ)
    (amplitudes : Option (ℤ → ℚ × ℚ)) (final_state : ℤ → ℚ × ℚ)
    (estimator : ℕ → List ℚ → ℚ) : Except PyError ℚ :=
  let dim := qid_shape.prod
  if bitstrings.all (fun b => decide (0 ≤ b ∧ b < (dim : ℤ))) then
    let bitstring_probabilities :=
      match amplitudes with
      | none => bitstrings.map fun b => absSq (final_state b)
      | some amp => bitstrings.map fun b => absSq (amp b)
    .ok (estimator dim bitstring_probabilities)
  else .error .valueError

/-- C5: `xeb_fidelity` computes the dimension `D` as the product of the
circuit's per-site dimensions and fails with `ValueError` whenever some
bitstring violates `0 ≤ b < D` — for every simulator and amplitude mapping,
i.e. before any simulation or amplitude lookup; when all bitstrings are in
range it returns the estimator applied to the looked-up probabilities. -/
theorem xeb_fidelity_spec (qid_shape : List ℕ) (bitstrings : List ℤ)
    (amplitudes : Option (ℤ → ℚ × ℚ)) (final_state : ℤ → ℚ × ℚ)
    (estimator : ℕ → List ℚ → ℚ) :
    ((∃ b ∈ bitstrings, ¬ (0 ≤ b ∧ b < (qid_shape.prod : ℤ))) →
        xeb_fidelity qid_shape bitstrings amplitudes final_state estimator =
          .error .valueError)
    ∧ ((∀ b ∈ bitstrings, 0 ≤ b ∧ b < (qid_shape.prod : ℤ)) →
        xeb_fidelity qid_shape bitstrings amplitudes final_state estimator =
          .ok (estimator qid_shape.prod
            (bitstrings.map fun b => absSq ((amplitudes.getD final_state) b)))) := by
  constructor
  · rintro ⟨b, hb, hbad⟩
    have hall : ¬ ((bitstrings.all fun b => decide (0 ≤ b ∧ b < (qid_shape.prod : ℤ))) = true) := by
      simp only [List.all_eq_true, decide_eq_true_eq]
      exact fun h => hbad (h b hb)
    simp only [xeb_fidelity]
    rw [if_neg hall]
  · intro hgood
    have hall : (bitstrings.all fun b => decide (0 ≤ b ∧ b < (qid_shape.prod : ℤ))) = true := by
      simp only [List.all_eq_true, decide_eq_true_eq]
      exact hgood
    cases amplitudes with
    | none =>
      simp only [xeb_fidelity]
      rw [if_pos hall]
      rfl
    | some amp =>
      simp only [xeb_fidelity]
      rw [if_pos hall]
      rfl

/-- Witness for C5 on a two-qubit shape (`D = 4`): bitstring 4 is rejected
and bitstring 3 is accepted (with the linear estimator). -/
theorem xeb_fidelity_spec_witness :
    xeb_fidelity [2, 2] [4] none (fun _ => (1, 0)) (fun d p => linear_xeb_fidelity_from_probabilities d p) =
        .error .valueError
    ∧ xeb_fidelity [2, 2] [3] none (fun _ => (1, 0)) (fun d p => linear_xeb_fidelity_from_probabilities d p) =
        .ok (linear_xeb_fidelity_from_probabilities 4 [1]) := by
  constructor
  · exact (xeb_fidelity_spec [2, 2] [4] none (fun _ => (1, 0)) _).1 ⟨4, by simp, by norm_num⟩
  · have h := (xeb_fidelity_spec [2, 2] [3] none (fun _ => (1, 0))
      (fun d p => linear_xeb_fidelity_from_probabilities d p)).2 (by norm_num)
    refine h.trans ?_
    norm_num [absSq]

/-! ### Gate characterization options (`XEBPhasedFSimCharacterizationOptions`) -/

/-- Embedding of the `XEBPhasedFSimCharacterizationOptions` dataclass: one
characterize-flag and one default value per angle, source defaults
`True` / `0`. -/
structure XEBPhasedFSimCharacterizationOptions where
  characterize_theta : Bool := true
  characterize_zeta : Bool := true
  characterize_chi : Bool := true
  characterize_gamma : Bool := true
  characterize_phi : Bool := true
  theta_default : ℚ := 0
  zeta_default : ℚ := 0
  chi_default : ℚ := 0
  gamma_default : ℚ := 0
  phi_default : ℚ := 0
  deriving DecidableEq, Repr

/-- The `x0` vector of `get_initial_simplex_and_names`: the default values of
the enabled angles, accumulated in the fixed source order θ, ζ, χ, γ, φ. -/
def simplexX0 (o : XEBPhasedFSimCharacterizationOptions) : List ℚ :=
  (if o.characterize_theta then [o.theta_default] else []) ++
  (if o.characterize_zeta then [o.zeta_default] else []) ++
  (if o.characterize_chi then [o.chi_default] else []) ++
  (if o.characterize_gamma then [o.gamma_default] else []) ++
  (if o.characterize_phi then [o.phi_default] else [])

/-- The `names` list of `get_initial_simplex_and_names`, accumulated in the
same pass as `x0`. -/
def simplexNames (o : XEBPhasedFSimCharacterizationOptions) : List String :=
  (if o.characterize_theta then ["theta"] else []) ++
  (if o.characterize_zeta then ["zeta"] else []) ++
  (if o.characterize_chi then ["chi"] else []) ++
  (if o.characterize_gamma then ["gamma"] else []) ++
  (if o.characterize_phi then ["phi"] else [])

/-- `np.eye(1, n, i)[0]`: the one-hot basis vector of length `n`. -/
def oneHot (n i : ℕ) : List ℚ := (List.range n).map fun j => if j = i then 1 else 0

/-- Embedding of `get_initial_simplex_and_names`: vertex 0 is `x0`, and for
each `i < n_param` one further vertex `x0 + initial_simplex_step_size *
basis_vec` is appended. -/
def get_initial_simplex_and_names (o : XEBPhasedFSimCharacterizationOptions)
    (initial_simplex_step_size : ℚ) : List (List ℚ) × List String :=
  let x0 := simplexX0 o
  let n_param := x0.length
  (x0 :: (List.range n_param).map fun i =>
      List.zipWith (fun v b => v + initial_simplex_step_size * b) x0 (oneHot n_param i),
    simplexNames o)

/-- Adding `s` times the zero vector is the identity. -/
theorem zipWith_add_smul_zero (s : ℚ) :
    ∀ l : List ℚ, List.zipWith (fun v b => v + s * b) l (List.replicate l.length 0) = l := by
  intro l
  induction l with
  | nil => rfl
  | cons a tl ih => simp [List.replicate_succ, ih]

/-- Adding `s` times the one-hot vector at `i` adds `s` to the `i`-th entry. -/
theorem zipWith_oneHot (s : ℚ) :
    ∀ (l : List ℚ) (i : ℕ),
      List.zipWith (fun v b => v + s * b) l (oneHot l.length i) = l.modify (· + s) i := by
  intro l
  induction l with
  | nil => intro i; simp [oneHot]
  | cons a tl ih =>
    intro i
    have hexp : oneHot (a :: tl).length i
        = (if (0 : ℕ) = i then (1 : ℚ) else 0) ::
            (List.range tl.length).map fun j => if j + 1 = i then (1 : ℚ) else 0 := by
      simp [oneHot, List.range_succ_eq_map, List.map_map, Function.comp_def]
    rw [hexp]
    cases i with
    | zero =>
      have hz : ((List.range tl.length).map fun j => if j + 1 = 0 then (1 : ℚ) else 0)
          = List.replicate tl.length 0 := by
        simp
      simp [hz, zipWith_add_smul_zero]
    | succ n =>
      have hshift : ((List.range tl.length).map fun j => if j + 1 = n + 1 then (1 : ℚ) else 0)
          = oneHot tl.length n := by
        simp only [oneHot, Nat.add_right_cancel_iff]
      simp only [show ¬ ((0 : ℕ) = n + 1) from by omega, if_false, List.zipWith_cons_cons,
        List.modify_succ_cons, hshift, ih n, mul_zero, add_zero]

/-- The enabled angles and the enabled defaults are in bijection. -/
theorem simplexX0_length (o : XEBPhasedFSimCharacterizationOptions) :
    (simplexX0 o).length = (simplexNames o).length := by
  rcases o with ⟨t, z, c, g, p, _, _, _, _, _⟩
  cases t <;> cases z <;> cases c <;> cases g <;> cases p <;> rfl

/-- C7: `get_initial_simplex_and_names` lists exactly the enabled angles in
the canonical order θ, ζ, χ, γ, φ, returns a simplex of `n + 1` vertices of
length `n` each (`n` the number of enabled angles), whose vertex 0 is the
vector of enabled defaults and whose vertex `i + 1` is vertex 0 with the step
size added to entry `i`; in particular with all five flags enabled the
simplex has shape `(6, 5)` and there are 5 names. -/
theorem get_initial_simplex_and_names_spec :
    (∀ (o : XEBPhasedFSimCharacterizationOptions) (s : ℚ),
        (get_initial_simplex_and_names o s).2 =
          ([("theta", o.characterize_theta), ("zeta", o.characterize_zeta),
            ("chi", o.characterize_chi), ("gamma", o.characterize_gamma),
            ("phi", o.characterize_phi)].filter (fun q => q.2)).map Prod.fst
      ∧ (get_initial_simplex_and_names o s).1.map List.length =
          List.replicate ((get_initial_simplex_and_names o s).2.length + 1)
            (get_initial_simplex_and_names o s).2.length
      ∧ (get_initial_simplex_and_names o s).1 =
          simplexX0 o :: ((List.range (simplexX0 o).length).map fun i =>
            (simplexX0 o).modify (· + s) i))
    ∧ ((get_initial_simplex_and_names {} 1).1.map List.length = [5, 5, 5, 5, 5, 5]
      ∧ (get_initial_simplex_and_names {} 1).2 = ["theta", "zeta", "chi", "gamma", "phi"]) := by
  refine ⟨fun o s => ⟨?_, ?_, ?_⟩, by rfl, by rfl⟩
  · rcases o with ⟨t, z, c, g, p, _, _, _, _, _⟩
    cases t <;> cases z <;> cases c <;> cases g <;> cases p <;> rfl
  · simp only [get_initial_simplex_and_names, List.map_cons, List.map_map]
    rw [← simplexX0_length o, List.replicate_succ]
    congr 1
    have : (List.length ∘ fun i =>
        List.zipWith (fun v b => v + s * b) (simplexX0 o) (oneHot (simplexX0 o).length i))
        = fun _ : ℕ => (simplexX0 o).length := by
      funext i
      simp [List.length_zipWith, oneHot]
    rw [this, List.map_const', List.length_range]
  · simp only [get_initial_simplex_and_names]
    congr 1
    exact List.map_congr_left fun i _ => zipWith_oneHot s (simplexX0 o) i

/-! ### Deduplication of cycle depths (simulation vs sampling scheduler) -/

/-- A walk over all moments, with a selector vanishing on odd moments, visits
exactly the potential cycle depths `k < (n + 1) / 2` at moments `2k`. -/
theorem filterMap_range_even {α : Type} (g : ℕ → Option α) (hg : ∀ m, m % 2 = 1 → g m = none) :
    ∀ n, (List.range n).filterMap g = (List.range ((n + 1) / 2)).filterMap fun k => g (2 * k) := by
  intro n
  induction n with
  | zero => rfl
  | succ n ih =>
    rw [List.range_succ, List.filterMap_append, ih]
    rcases Nat.even_or_odd n with he | ho
    · have hn2 : n % 2 = 0 := Nat.even_iff.mp he
      have h1 : (n + 1 + 1) / 2 = (n + 1) / 2 + 1 := by omega
      have h2 : 2 * ((n + 1) / 2) = n := by omega
      rw [h1, List.range_succ, List.filterMap_append]
      congr 1
      simp only [List.filterMap_cons, List.filterMap_nil]
      rw [h2]
    · have hn2 : n % 2 = 1 := Nat.odd_iff.mp ho
      have h1 : (n + 1 + 1) / 2 = (n + 1) / 2 := by omega
      have h2 : g n = none := hg n hn2
      rw [h1]
      simp [h2]

/-- Selecting by a decidable predicate and then building a record is a
filter followed by a map. -/
theorem filterMap_ite_eq_map_filter {α : Type} (q : ℕ → Prop) [DecidablePred q] (r : ℕ → α) :
    ∀ l : List ℕ, (l.filterMap fun k => if q k then some (r k) else none)
      = (l.filter fun k => decide (q k)).map r := by
  intro l
  induction l with
  | nil => rfl
  | cons a tl ih =>
    by_cases h : q a <;> simp [List.filterMap_cons, List.filter_cons, h, ih]

/-- Counting the members of `depths` below a bound dominating all of them
counts the distinct elements of `depths`. -/
theorem length_filter_range_mem (depths : List ℕ) (B : ℕ) (hB : ∀ d ∈ depths, d < B) :
    ((List.range B).filter fun k => decide (k ∈ depths)).length = depths.toFinset.card := by
  have hnd : ((List.range B).filter fun k => decide (k ∈ depths)).Nodup :=
    List.Nodup.filter _ (List.nodup_range B)
  rw [← List.toFinset_card_of_nodup hnd]
  congr 1
  ext x
  simp only [List.mem_toFinset, List.mem_filter, List.mem_range, decide_eq_true_eq]
  exact ⟨fun h => h.2, fun h => ⟨hB x h, h⟩⟩

/-- The running maximum of a non-empty list is one of its elements. -/
theorem foldl_max_mem : ∀ (ds : List ℕ) (a : ℕ), ds.foldl max a ∈ a :: ds := by
  intro ds
  induction ds with
  | nil => intro a; simp
  | cons b ds ih =>
    intro a
    rw [List.foldl_cons]
    rcases List.mem_cons.mp (ih (max a b)) with h | h
    · rw [h]
      rcases max_choice a b with hm | hm <;> rw [hm]
      · exact List.mem_cons_self _ _
      · exact List.mem_cons_of_mem _ (List.mem_cons_self _ _)
    · exact List.mem_cons_of_mem _ (List.mem_cons_of_mem _ h)

/-- Success case of the per-circuit simulation task: when the depths are
non-empty and all feasible, the records are exactly one per distinct
requested depth, in increasing depth order, carrying the state probabilities
after moment `2k`. -/
theorem simulate_2q_xeb_circuit_ok (probsAfter : Circuit → ℕ → List ℚ) (circuit_i : ℕ)
    (cycle_depths : List ℕ) (circuit : Circuit)
    (hne : cycle_depths ≠ [])
    (hfit : ∀ d ∈ cycle_depths, 2 * d + 1 ≤ circuit.length) :
    simulate_2q_xeb_circuit probsAfter circuit_i cycle_depths circuit =
      .ok (((List.range ((circuit.length + 1) / 2)).filter fun k =>
          decide (k ∈ cycle_depths)).map
        fun k => ⟨circuit_i, k, probsAfter circuit (2 * k)⟩) := by
  cases cycle_depths with
  | nil => exact absurd rfl hne
  | cons d ds =>
    have hmax : ¬ (((ds.foldl max d : ℕ) : ℤ) > Int.fdiv ((circuit.length : ℤ) - 1) 2) := by
      intro hgt
      have hmem := foldl_max_mem ds d
      have hle := hfit _ hmem
      have := (cycle_depth_bound (ds.foldl max d) circuit.length).mp hgt
      omega
    rw [simulate_2q_xeb_circuit, if_neg hmax]
    rw [filterMap_range_even _ (fun m hm => by simp [hm])]
    rw [show (fun k => if 2 * k % 2 = 1 then none
          else if 2 * k / 2 ∈ d :: ds then
            some (⟨circuit_i, 2 * k / 2, probsAfter circuit (2 * k)⟩ : SimRecord)
          else none)
        = fun k => if k ∈ d :: ds then
            some (⟨circuit_i, k, probsAfter circuit (2 * k)⟩ : SimRecord)
          else none from ?_]
    · rw [filterMap_ite_eq_map_filter]
    · funext k
      have h1 : 2 * k % 2 = 0 := by omega
      have h2 : 2 * k / 2 = k := by omega
      simp [h1, h2]

/-- One record per distinct feasible depth. -/
theorem simulate_records_length (probsAfter : Circuit → ℕ → List ℚ) (circuit_i : ℕ)
    (cycle_depths : List ℕ) (circuit : Circuit)
    (hfit : ∀ d ∈ cycle_depths, 2 * d + 1 ≤ circuit.length) :
    (((List.range ((circuit.length + 1) / 2)).filter fun k =>
        decide (k ∈ cycle_depths)).map
      fun k => (⟨circuit_i, k, probsAfter circuit (2 * k)⟩ : SimRecord)).length
      = cycle_depths.toFinset.card := by
  rw [List.length_map]
  exact length_filter_range_mem cycle_depths _ fun d hd => by have := hfit d hd; omega

/-- The sequential task loop of `simulate_2q_xeb_circuits` succeeds on
all-feasible inputs, with one record per (pair, distinct depth). -/
theorem simulateTasks_ok (probsAfter : Circuit → ℕ → List ℚ) (cycle_depths : List ℕ)
    (hne : cycle_depths ≠ []) :
    ∀ pairs : List (ℕ × Circuit),
      (∀ p ∈ pairs, ∀ d ∈ cycle_depths, 2 * d + 1 ≤ p.2.length) →
      ∃ nested, simulateTasks probsAfter cycle_depths pairs = .ok nested ∧
        nested.flatten.length = pairs.length * cycle_depths.toFinset.card := by
  intro pairs
  induction pairs with
  | nil => exact fun _ => ⟨[], rfl, by simp⟩
  | cons hd tl ih =>
    intro hfit
    obtain ⟨i, c⟩ := hd
    obtain ⟨nested, hok, hlen⟩ := ih fun p hp d hdep => hfit p (List.mem_cons_of_mem _ hp) d hdep
    have h1 := simulate_2q_xeb_circuit_ok probsAfter i cycle_depths c hne
      fun d hd => hfit (i, c) (List.mem_cons_self _ _) d hd
    have h2 := simulate_records_length probsAfter i cycle_depths c
      fun d hd => hfit (i, c) (List.mem_cons_self _ _) d hd
    refine ⟨(((List.range ((c.length + 1) / 2)).filter fun k => decide (k ∈ cycle_depths)).map
        fun k => (⟨i, k, probsAfter c (2 * k)⟩ : SimRecord)) :: nested, ?_, ?_⟩
    · simp only [simulateTasks, h1, hok]
    · simp only [List.flatten_cons, List.length_append, h2, hlen, List.length_cons]
      ring

/-- The simulation scheduler emits `len(circuits) * #distinct depths` rows. -/
theorem simulate_2q_xeb_circuits_length (probsAfter : Circuit → ℕ → List ℚ)
    (circuits : List Circuit) (cycle_depths : List ℕ)
    (hne : cycle_depths ≠ [])
    (hfit : ∀ c ∈ circuits, ∀ d ∈ cycle_depths, 2 * d + 1 ≤ c.length) :
    (simulate_2q_xeb_circuits probsAfter circuits cycle_depths).map List.length
      = .ok (circuits.length * cycle_depths.toFinset.card) := by
  obtain ⟨nested, hok, hlen⟩ := simulateTasks_ok probsAfter cycle_depths hne circuits.enum
    fun p hp d hd =>
      hfit p.2 (List.getElem?_mem (List.mem_enum_iff_getElem?.mp hp)) d hd
  simp only [simulate_2q_xeb_circuits, hok, Except.map]
  rw [hlen, List.enum_length]

/-- A list with a duplicate has strictly fewer distinct elements than
entries. -/
theorem toFinset_card_lt_of_not_nodup (l : List ℕ) (hnd : ¬ l.Nodup) :
    l.toFinset.card < l.length := by
  have hsub : l.dedup.Sublist l := List.dedup_sublist _
  have hle := hsub.length_le
  have hcard : l.toFinset.card = l.dedup.length := by
    rw [Finset.card, List.toFinset_val, Multiset.coe_card]
  rw [hcard]
  rcases lt_or_eq_of_le hle with h | h
  · exact h
  · have heq : l.dedup = l := hsub.eq_of_length h
    exact absurd (heq ▸ List.nodup_dedup l) hnd

/-- C10: on a non-empty all-feasible depth list, the simulation scheduler
deduplicates the requested depths — one `pure_probs` row per
`(circuit, distinct depth)` pair — while the sampling scheduler emits one row
per depth-list entry, so a duplicated depth makes the two row counts
differ. -/
theorem simulate_deduplicates_sample_repeats (probsAfter : Circuit → ℕ → List ℚ)
    (sampler : Circuit → List ℕ) (circuits : List Circuit) (cycle_depths : List ℕ)
    (batch_size : ℕ) (q0 q1 : ℕ)
    (hq : verify_and_get_two_qubits_from_circuits circuits = .ok (q0, q1))
    (hbs : 0 < batch_size) (hne : cycle_depths ≠ [])
    (hfit : ∀ c ∈ circuits, ∀ d ∈ cycle_depths, 2 * d + 1 ≤ c.length) :
    (simulate_2q_xeb_circuits probsAfter circuits cycle_depths).map List.length
        = .ok (circuits.length * cycle_depths.toFinset.card)
    ∧ (sample_2q_xeb_circuits sampler circuits cycle_depths batch_size).map List.length
        = .ok (circuits.length * cycle_depths.length)
    ∧ (¬ cycle_depths.Nodup → cycle_depths.toFinset.card < cycle_depths.length) := by
  refine ⟨simulate_2q_xeb_circuits_length probsAfter circuits cycle_depths hne hfit, ?_, ?_⟩
  · rw [sample_2q_xeb_circuits_ok sampler circuits cycle_depths batch_size q0 q1 hq hbs
      fun d hd c hc => hfit c hc d hd]
    simp only [Except.map]
    rw [sample_expected_records_length]
  · exact toFinset_card_lt_of_not_nodup cycle_depths

/-- Witness for C10 on one three-layer circuit with depths `[0, 0, 1]`:
simulation yields 2 rows, sampling yields 3. -/
theorem simulate_deduplicates_sample_repeats_witness :
    (simulate_2q_xeb_circuits (fun _ _ => [1, 0, 0, 0])
        [[[⟨Gate.unitary 0, [0, 1]⟩], [⟨Gate.unitary 1, [0, 1]⟩], [⟨Gate.unitary 2, [0, 1]⟩]]]
        [0, 0, 1]).map List.length = .ok 2
    ∧ (sample_2q_xeb_circuits (fun _ => [0])
        [[[⟨Gate.unitary 0, [0, 1]⟩], [⟨Gate.unitary 1, [0, 1]⟩], [⟨Gate.unitary 2, [0, 1]⟩]]]
        [0, 0, 1] 9).map List.length = .ok 3
    ∧ ([0, 0, 1] : List ℕ).toFinset.card < ([0, 0, 1] : List ℕ).length := by
  have h := simulate_deduplicates_sample_repeats (fun _ _ => [1, 0, 0, 0]) (fun _ => [0])
    [[[⟨Gate.unitary 0, [0, 1]⟩], [⟨Gate.unitary 1, [0, 1]⟩], [⟨Gate.unitary 2, [0, 1]⟩]]]
    [0, 0, 1] 9 0 1 rfl (by omega) (by decide) (by decide)
  exact ⟨h.1.trans (by rfl), h.2.1.trans (by rfl), h.2.2 (by decide)⟩

end FidelityEstimation
